import Mathlib

/-!
Verification of the concurrent directory-analysis core of madaa against its
specification.  The definitions below are shallow embeddings of the Go source
in src/main.go (the current revision) and, where the claims cite it, of the
earlier revision kept in the repository.  Go int64 values are modelled as Int
(no arithmetic anywhere near overflow occurs in the modelled code), Go maps
are modelled as association lists, and the bounded min-heap from
container/heap is modelled index-for-index on lists.
-/

set_option maxHeartbeats 1000000
set_option maxRecDepth 8000

namespace Madaa

/-- One entry of a largest-files tracker: struct FileSize of src/main.go with
fields Path, Size and Type; the Go field Type is called Ftype here because
Type is a Lean keyword, and the Go int64 size is modelled as Int. -/
structure FileSize where
  Path : String
  Size : Int
  Ftype : String
deriving DecidableEq

/-- The zero FileSize, used as the default for out-of-range slice reads in the
model.  All reads performed by the modelled code are in bounds whenever the
capacity is at least 1, which every claim assumes; Go would panic on an
out-of-range read instead. -/
def fszero : FileSize := FileSize.mk "" 0 ""

/-- Indexing h[i] into the FileSizeHeap backing slice. -/
def hget (h : List FileSize) (i : Nat) : FileSize := h.getD i fszero

/-- FileSizeHeap.Swap of src/main.go: exchange the elements at positions i
and j of the backing slice. -/
def hswap (h : List FileSize) (i j : Nat) : List FileSize :=
  (h.set i (hget h j)).set j (hget h i)

/-- FileSizeHeap.Less of src/main.go compares the Size fields, so the sort
key of position i is the size stored there. -/
def key (h : List FileSize) (i : Nat) : Int := (hget h i).Size

theorem length_hswap (h : List FileSize) (i j : Nat) :
    (hswap h i j).length = h.length := by
  simp [hswap]

theorem getD_set_self (l : List FileSize) (i : Nat) (a d : FileSize)
    (hi : i < l.length) : (l.set i a).getD i d = a := by
  have hi' : i < (l.set i a).length := by simpa using hi
  rw [List.getD_eq_getElem?_getD, List.getElem?_set_self hi]
  rfl

theorem getD_set_ne (l : List FileSize) (i k : Nat) (a d : FileSize)
    (hik : i ≠ k) : (l.set i a).getD k d = l.getD k d := by
  rw [List.getD_eq_getElem?_getD, List.getElem?_set_ne hik,
    ← List.getD_eq_getElem?_getD]

theorem hget_eq (h : List FileSize) (i : Nat) (hi : i < h.length) :
    hget h i = h[i] := by
  simp [hget, List.getD_eq_getElem?_getD, List.getElem?_eq_getElem hi]

theorem hget_hswap_right (h : List FileSize) (i j : Nat) (hj : j < h.length) :
    hget (hswap h i j) j = hget h i := by
  show ((h.set i (hget h j)).set j (hget h i)).getD j fszero = hget h i
  exact getD_set_self _ j _ _ (by simpa using hj)

theorem hget_hswap_left (h : List FileSize) (i j : Nat)
    (hi : i < h.length) (hj : j < h.length) :
    hget (hswap h i j) i = hget h j := by
  by_cases hij : i = j
  · subst hij
    exact hget_hswap_right h i i hj
  · have hji : j ≠ i := fun hc => hij hc.symm
    show ((h.set i (hget h j)).set j (hget h i)).getD i fszero = hget h j
    rw [getD_set_ne _ j i _ _ hji]
    exact getD_set_self _ i _ _ hi

theorem hget_hswap_other (h : List FileSize) (i j k : Nat)
    (hki : k ≠ i) (hkj : k ≠ j) :
    hget (hswap h i j) k = hget h k := by
  have h1 : i ≠ k := fun hc => hki hc.symm
  have h2 : j ≠ k := fun hc => hkj hc.symm
  show ((h.set i (hget h j)).set j (hget h i)).getD k fszero = hget h k
  rw [getD_set_ne _ j k _ _ h2, getD_set_ne _ i k _ _ h1]
  rfl

theorem count_le_of_getElem {h : List FileSize} {i : Nat} (hi : i < h.length)
    (b : FileSize) :
    (if h[i] == b then 1 else 0) ≤ h.count b := by
  by_cases hb : h[i] = b
  · have hmem : b ∈ h := hb ▸ List.getElem_mem hi
    have h1 : 1 ≤ h.count b := List.one_le_count_iff.2 hmem
    simpa [hb] using h1
  · simp [hb]

theorem perm_hswap (h : List FileSize) (i j : Nat)
    (hi : i < h.length) (hj : j < h.length) :
    (hswap h i j).Perm h := by
  rw [List.perm_iff_count]
  intro b
  have hj' : j < (h.set i (hget h j)).length := by simpa using hj
  show ((h.set i (hget h j)).set j (hget h i)).count b = h.count b
  rw [List.count_set _ _ _ _ hj', List.count_set _ _ _ _ hi]
  have hgi : hget h i = h[i] := hget_eq h i hi
  have hgj : hget h j = h[j] := hget_eq h j hj
  have hA : (if h[i] == b then 1 else 0) ≤ h.count b := count_le_of_getElem hi b
  by_cases hij : i = j
  · subst hij
    rw [List.getElem_set_self, hgi]
    omega
  · rw [List.getElem_set_ne hij, hgi]
    simp only [hgj]
    have hB : (if h[j] == b then 1 else 0) ≤ h.count b := count_le_of_getElem hj b
    omega

/-- The up (sift-up) loop of Go container/heap, specialised to FileSizeHeap.
Go breaks when i == j or the child is not less than the parent; with Nat
arithmetic the first disjunct happens exactly at j = 0, matching Go where
(0-1)/2 truncates to 0. -/
def up (h : List FileSize) (j : Nat) : List FileSize :=
  if (j - 1) / 2 = j ∨ ¬ key h j < key h ((j - 1) / 2) then h
  else up (hswap h ((j - 1) / 2) j) ((j - 1) / 2)
termination_by j
decreasing_by
  rename_i hcond
  push_neg at hcond
  have h1 := hcond.1
  omega

/-- The down (sift-down) loop of Go container/heap, specialised to
FileSizeHeap, restricted to the first n positions.  The Go loop first picks
the smaller child j of i (preferring the left child on ties), then swaps and
descends while the child is smaller; the j1 < 0 overflow guard of the Go
source cannot fire for Nat indices and is dropped. -/
def down (h : List FileSize) (i n : Nat) : List FileSize :=
  if n ≤ 2 * i + 1 then h
  else if 2 * i + 2 < n ∧ key h (2 * i + 2) < key h (2 * i + 1) then
    if key h (2 * i + 2) < key h i then down (hswap h i (2 * i + 2)) (2 * i + 2) n
    else h
  else if key h (2 * i + 1) < key h i then down (hswap h i (2 * i + 1)) (2 * i + 1) n
  else h
termination_by n - i
decreasing_by
  · omega
  · omega

/-- heap.Push for FileSizeHeap: append the item (FileSizeHeap.Push) and sift
it up from the last position. -/
def hpush (h : List FileSize) (x : FileSize) : List FileSize :=
  up (h ++ [x]) h.length

/-- heap.Pop for FileSizeHeap: swap the root with the last element, sift the
new root down within the shortened prefix, then remove and return the last
element (FileSizeHeap.Pop). -/
def hpop (h : List FileSize) : FileSize × List FileSize :=
  (hget (down (hswap h 0 (h.length - 1)) 0 (h.length - 1)) (h.length - 1),
   (down (hswap h 0 (h.length - 1)) 0 (h.length - 1)).take (h.length - 1))

/-- The Offer step of the bounded Top-K tracker, translated from processFile
in src/main.go lines 552-557: insert while below capacity, otherwise evict
the root and insert exactly when the new size is strictly greater than the
root's size.  The per-type tracker at lines 564-571 runs the same code with
capacity min maxFiles 10. -/
def Offer (cap : Nat) (h : List FileSize) (x : FileSize) : List FileSize :=
  if h.length < cap then hpush h x
  else if key h 0 < x.Size then hpush (hpop h).2 x
  else h

/-- The binary min-heap ordering property restricted to the first n slots:
every non-root position within n is at least its parent. -/
def IsHeapUpTo (h : List FileSize) (n : Nat) : Prop :=
  ∀ k, k < n → 0 < k → key h ((k - 1) / 2) ≤ key h k

/-- The binary min-heap ordering property of the whole backing slice. -/
def IsHeap (h : List FileSize) : Prop := IsHeapUpTo h h.length

instance (h : List FileSize) (n : Nat) : Decidable (IsHeapUpTo h n) := by
  unfold IsHeapUpTo
  infer_instance

instance (h : List FileSize) : Decidable (IsHeap h) := by
  unfold IsHeap
  infer_instance

theorem length_up (h : List FileSize) (j : Nat) : (up h j).length = h.length := by
  induction h, j using up.induct with
  | case1 h j hc => rw [up, if_pos hc]
  | case2 h j hc ih =>
    rw [up, if_neg hc, ih, length_hswap]

theorem perm_up (h : List FileSize) (j : Nat) (hj : j < h.length) :
    (up h j).Perm h := by
  induction h, j using up.induct with
  | case1 h j hc => rw [up, if_pos hc]
  | case2 h j hc ih =>
    push_neg at hc
    have hij : (j - 1) / 2 < j := by
      have := hc.1
      omega
    have hi : (j - 1) / 2 < h.length := lt_trans hij hj
    rw [up, if_neg (by push_neg; exact hc)]
    exact (ih (by rw [length_hswap]; exact lt_trans hij hj)).trans
      (perm_hswap h _ j hi hj)

theorem length_down (h : List FileSize) (i n : Nat) :
    (down h i n).length = h.length := by
  induction h, i, n using down.induct with
  | case1 h i n hc => rw [down, if_pos hc]
  | case2 h i n hc h2 h3 ih =>
    rw [down, if_neg hc, if_pos h2, if_pos h3, ih, length_hswap]
  | case3 h i n hc h2 h3 =>
    rw [down, if_neg hc, if_pos h2, if_neg h3]
  | case4 h i n hc h2 h3 ih =>
    rw [down, if_neg hc, if_neg h2, if_pos h3, ih, length_hswap]
  | case5 h i n hc h2 h3 =>
    rw [down, if_neg hc, if_neg h2, if_neg h3]

theorem perm_down (h : List FileSize) (i n : Nat) (hn : n ≤ h.length) :
    (down h i n).Perm h := by
  induction h, i, n using down.induct with
  | case1 h i n hc => rw [down, if_pos hc]
  | case2 h i n hc h2 h3 ih =>
    rw [down, if_neg hc, if_pos h2, if_pos h3]
    have hi : i < h.length := by omega
    have hj : 2 * i + 2 < h.length := by omega
    exact (ih (by rw [length_hswap]; exact hn)).trans (perm_hswap h i _ hi hj)
  | case3 h i n hc h2 h3 =>
    rw [down, if_neg hc, if_pos h2, if_neg h3]
  | case4 h i n hc h2 h3 ih =>
    rw [down, if_neg hc, if_neg h2, if_pos h3]
    have hi : i < h.length := by omega
    have hj : 2 * i + 1 < h.length := by omega
    exact (ih (by rw [length_hswap]; exact hn)).trans (perm_hswap h i _ hi hj)
  | case5 h i n hc h2 h3 =>
    rw [down, if_neg hc, if_neg h2, if_neg h3]

/-- down never touches positions at or beyond its bound n. -/
theorem hget_down_stable (h : List FileSize) (i n : Nat) (m : Nat) (hm : n ≤ m) :
    hget (down h i n) m = hget h m := by
  induction h, i, n using down.induct with
  | case1 h i n hc => rw [down, if_pos hc]
  | case2 h i n hc h2 h3 ih =>
    rw [down, if_neg hc, if_pos h2, if_pos h3, ih hm,
      hget_hswap_other h i _ m (by omega) (by omega)]
  | case3 h i n hc h2 h3 =>
    rw [down, if_neg hc, if_pos h2, if_neg h3]
  | case4 h i n hc h2 h3 ih =>
    rw [down, if_neg hc, if_neg h2, if_pos h3, ih hm,
      hget_hswap_other h i _ m (by omega) (by omega)]
  | case5 h i n hc h2 h3 =>
    rw [down, if_neg hc, if_neg h2, if_neg h3]

/-- Sift-up restores the heap ordering: if the slice is heap-ordered at every
edge except possibly the one from position j to its parent, and in addition
the grandparent bound holds at the children of j, then up h j is a heap. -/
theorem up_correct (h : List FileSize) (j : Nat) :
    j < h.length →
    (∀ k, 0 < k → k < h.length → k ≠ j → key h ((k - 1) / 2) ≤ key h k) →
    (∀ c, c < h.length → (c = 2 * j + 1 ∨ c = 2 * j + 2) → 0 < j →
      key h ((j - 1) / 2) ≤ key h c) →
    IsHeap (up h j) := by
  induction h, j using up.induct with
  | case1 h j hc =>
    intro hj E1 E2
    rw [up, if_pos hc]
    intro k hk hk0
    by_cases hkj : k = j
    · subst hkj
      rcases hc with hc | hc
      · rw [hc]
      · exact not_lt.1 hc
    · exact E1 k hk0 hk hkj
  | case2 h j hc ih =>
    intro hj E1 E2
    have hc' := hc
    push_neg at hc'
    have hne : (j - 1) / 2 ≠ j := hc'.1
    have hlt : key h j < key h ((j - 1) / 2) := hc'.2
    have hj0 : 0 < j := by omega
    have hij : (j - 1) / 2 < j := by omega
    have hi : (j - 1) / 2 < h.length := lt_trans hij hj
    rw [up, if_neg hc]
    have hkeyi : key (hswap h ((j - 1) / 2) j) ((j - 1) / 2) = key h j := by
      unfold key
      rw [hget_hswap_left h _ j hi hj]
    have hkeyj : key (hswap h ((j - 1) / 2) j) j = key h ((j - 1) / 2) := by
      unfold key
      rw [hget_hswap_right h _ j hj]
    have hkeyo : ∀ m, m ≠ (j - 1) / 2 → m ≠ j →
        key (hswap h ((j - 1) / 2) j) m = key h m := by
      intro m h1 h2
      unfold key
      rw [hget_hswap_other h _ j m h1 h2]
    apply ih
    · rw [length_hswap]
      exact hi
    · intro k hk0 hklen hki
      rw [length_hswap] at hklen
      by_cases hkj : k = j
      · subst hkj
        rw [hkeyi, hkeyj]
        exact le_of_lt hlt
      · have hkk : key (hswap h ((j - 1) / 2) j) k = key h k := hkeyo k hki hkj
        by_cases hpi : (k - 1) / 2 = (j - 1) / 2
        · rw [hpi, hkeyi, hkk]
          have h1 : key h ((k - 1) / 2) ≤ key h k := E1 k hk0 hklen hkj
          rw [hpi] at h1
          exact le_trans (le_of_lt hlt) h1
        · by_cases hpj : (k - 1) / 2 = j
          · rw [hpj, hkeyj, hkk]
            exact E2 k hklen (by omega) hj0
          · rw [hkeyo _ hpi hpj, hkk]
            exact E1 k hk0 hklen hkj
    · intro c hclen hcch hi0
      rw [length_hswap] at hclen
      have hp_ne_i : ((j - 1) / 2 - 1) / 2 ≠ (j - 1) / 2 := by omega
      have hp_ne_j : ((j - 1) / 2 - 1) / 2 ≠ j := by omega
      rw [hkeyo _ hp_ne_i hp_ne_j]
      by_cases hcj : c = j
      · subst hcj
        rw [hkeyj]
        exact E1 _ hi0 hi hne
      · have hci : c ≠ (j - 1) / 2 := by omega
        rw [hkeyo _ hci hcj]
        have h1 : key h ((c - 1) / 2) ≤ key h c := E1 c (by omega) hclen hcj
        have h2 : (c - 1) / 2 = (j - 1) / 2 := by omega
        rw [h2] at h1
        exact le_trans (E1 _ hi0 hi hne) h1

/-- Sift-down restores the heap ordering within the first n slots: if every
edge within n is heap-ordered except possibly the edges from position i to
its children, and the grandparent bound holds at the children of i, then
down h i n is heap-ordered within n. -/
theorem down_correct (h : List FileSize) (i n : Nat) :
    n ≤ h.length →
    (∀ k, 0 < k → k < n → (k - 1) / 2 ≠ i → key h ((k - 1) / 2) ≤ key h k) →
    (∀ c, c < n → (c = 2 * i + 1 ∨ c = 2 * i + 2) → 0 < i →
      key h ((i - 1) / 2) ≤ key h c) →
    IsHeapUpTo (down h i n) n := by
  induction h, i, n using down.induct with
  | case1 h i n hc =>
    intro hn D1 D2
    rw [down, if_pos hc]
    intro k hk hk0
    by_cases hpi : (k - 1) / 2 = i
    · exact absurd hk (by omega)
    · exact D1 k hk0 hk hpi
  | case2 h i n hc h2 h3 ih =>
    intro hn D1 D2
    rw [down, if_neg hc, if_pos h2, if_pos h3]
    have hin : i < n := by omega
    have hjn : 2 * i + 2 < n := h2.1
    have hi_len : i < h.length := lt_of_lt_of_le hin hn
    have hj_len : 2 * i + 2 < h.length := lt_of_lt_of_le hjn hn
    have hkeyi : key (hswap h i (2 * i + 2)) i = key h (2 * i + 2) := by
      unfold key
      rw [hget_hswap_left h i _ hi_len hj_len]
    have hkeyj : key (hswap h i (2 * i + 2)) (2 * i + 2) = key h i := by
      unfold key
      rw [hget_hswap_right h i _ hj_len]
    have hkeyo : ∀ m, m ≠ i → m ≠ 2 * i + 2 →
        key (hswap h i (2 * i + 2)) m = key h m := by
      intro m hm1 hm2
      unfold key
      rw [hget_hswap_other h i _ m hm1 hm2]
    apply ih
    · rw [length_hswap]
      exact hn
    · intro k hk0 hklt hpj
      by_cases hkj : k = 2 * i + 2
      · subst hkj
        have hp : (2 * i + 2 - 1) / 2 = i := by omega
        rw [hp, hkeyi, hkeyj]
        exact le_of_lt h3
      · by_cases hki : k = i
        · subst hki
          have hk0' : 0 < k := hk0
          have hp1 : (k - 1) / 2 ≠ k := by omega
          have hp2 : (k - 1) / 2 ≠ 2 * k + 2 := by omega
          rw [hkeyo _ hp1 hp2, hkeyi]
          exact D2 (2 * k + 2) hjn (Or.inr rfl) hk0
        · have hkk : key (hswap h i (2 * i + 2)) k = key h k := hkeyo k hki hkj
          by_cases hpi : (k - 1) / 2 = i
          · have hk1 : k = 2 * i + 1 := by omega
            rw [hpi, hkeyi, hkk, hk1]
            exact le_of_lt h2.2
          · rw [hkeyo _ hpi hpj, hkk]
            exact D1 k hk0 hklt hpi
    · intro c hclt hcch _
      have hp : (2 * i + 2 - 1) / 2 = i := by omega
      rw [hp, hkeyi]
      have hci : c ≠ i := by omega
      have hcj : c ≠ 2 * i + 2 := by omega
      rw [hkeyo c hci hcj]
      have h1 : key h ((c - 1) / 2) ≤ key h c :=
        D1 c (by omega) hclt (by omega)
      have hpc : (c - 1) / 2 = 2 * i + 2 := by omega
      rw [hpc] at h1
      exact h1
  | case3 h i n hc h2 h3 =>
    intro hn D1 D2
    rw [down, if_neg hc, if_pos h2, if_neg h3]
    intro k hk hk0
    by_cases hpi : (k - 1) / 2 = i
    · rw [hpi]
      rcases (by omega : k = 2 * i + 1 ∨ k = 2 * i + 2) with hk1 | hk1 <;> subst hk1
      · exact le_trans (not_lt.1 h3) (le_of_lt h2.2)
      · exact not_lt.1 h3
    · exact D1 k hk0 hk hpi
  | case4 h i n hc h2 h3 ih =>
    intro hn D1 D2
    rw [down, if_neg hc, if_neg h2, if_pos h3]
    have hin : i < n := by omega
    have hjn : 2 * i + 1 < n := by omega
    have hi_len : i < h.length := lt_of_lt_of_le hin hn
    have hj_len : 2 * i + 1 < h.length := lt_of_lt_of_le hjn hn
    push_neg at h2
    have hkeyi : key (hswap h i (2 * i + 1)) i = key h (2 * i + 1) := by
      unfold key
      rw [hget_hswap_left h i _ hi_len hj_len]
    have hkeyj : key (hswap h i (2 * i + 1)) (2 * i + 1) = key h i := by
      unfold key
      rw [hget_hswap_right h i _ hj_len]
    have hkeyo : ∀ m, m ≠ i → m ≠ 2 * i + 1 →
        key (hswap h i (2 * i + 1)) m = key h m := by
      intro m hm1 hm2
      unfold key
      rw [hget_hswap_other h i _ m hm1 hm2]
    apply ih
    · rw [length_hswap]
      exact hn
    · intro k hk0 hklt hpj
      by_cases hkj : k = 2 * i + 1
      · subst hkj
        have hp : (2 * i + 1 - 1) / 2 = i := by omega
        rw [hp, hkeyi, hkeyj]
        exact le_of_lt h3
      · by_cases hki : k = i
        · subst hki
          have hp1 : (k - 1) / 2 ≠ k := by omega
          have hp2 : (k - 1) / 2 ≠ 2 * k + 1 := by omega
          rw [hkeyo _ hp1 hp2, hkeyi]
          exact D2 (2 * k + 1) hjn (Or.inl rfl) hk0
        · have hkk : key (hswap h i (2 * i + 1)) k = key h k := hkeyo k hki hkj
          by_cases hpi : (k - 1) / 2 = i
          · have hk1 : k = 2 * i + 2 := by omega
            rw [hpi, hkeyi, hkk, hk1]
            exact h2 (by omega)
          · rw [hkeyo _ hpi hpj, hkk]
            exact D1 k hk0 hklt hpi
    · intro c hclt hcch _
      have hp : (2 * i + 1 - 1) / 2 = i := by omega
      rw [hp, hkeyi]
      have hci : c ≠ i := by omega
      have hcj : c ≠ 2 * i + 1 := by omega
      rw [hkeyo c hci hcj]
      have h1 : key h ((c - 1) / 2) ≤ key h c :=
        D1 c (by omega) hclt (by omega)
      have hpc : (c - 1) / 2 = 2 * i + 1 := by omega
      rw [hpc] at h1
      exact h1
  | case5 h i n hc h2 h3 =>
    intro hn D1 D2
    rw [down, if_neg hc, if_neg h2, if_neg h3]
    push_neg at h2
    intro k hk hk0
    by_cases hpi : (k - 1) / 2 = i
    · rw [hpi]
      rcases (by omega : k = 2 * i + 1 ∨ k = 2 * i + 2) with hk1 | hk1 <;> subst hk1
      · exact not_lt.1 h3
      · exact le_trans (not_lt.1 h3) (h2 (by omega))
    · exact D1 k hk0 hk hpi

theorem hget_append (h : List FileSize) (x : FileSize) (k : Nat)
    (hk : k < h.length) : hget (h ++ [x]) k = hget h k := by
  unfold hget
  exact List.getD_append h [x] fszero k hk

theorem hget_take (l : List FileSize) (n m : Nat) (hm : m < n) :
    hget (l.take n) m = hget l m := by
  unfold hget
  rw [List.getD_eq_getElem?_getD, List.getElem?_take_of_lt hm,
    ← List.getD_eq_getElem?_getD]

/-- In a heap-ordered prefix the root key is a lower bound for every slot. -/
theorem key_zero_le (h : List FileSize) (n : Nat) (hh : IsHeapUpTo h n) :
    ∀ j, j < n → key h 0 ≤ key h j := by
  intro j
  induction j using Nat.strong_induction_on with
  | _ j ih =>
    intro hj
    rcases Nat.eq_zero_or_pos j with h0 | h0
    · subst h0
      exact le_refl _
    · exact le_trans (ih ((j - 1) / 2) (by omega) (by omega)) (hh j hj h0)

/-- The root of a heap-ordered FileSizeHeap has minimal size among members. -/
theorem root_min (h : List FileSize) (hh : IsHeap h) (z : FileSize)
    (hz : z ∈ h) : key h 0 ≤ z.Size := by
  rcases List.mem_iff_get.1 hz with ⟨⟨i, hi⟩, rfl⟩
  have h1 : key h 0 ≤ key h i := key_zero_le h h.length hh i hi
  have h2 : key h i = (h.get ⟨i, hi⟩).Size := by
    rw [key, hget_eq h i hi]
    simp
  rw [h2] at h1
  exact h1

theorem getLast_eq_hget (l : List FileSize) (hne : l ≠ []) :
    l.getLast hne = hget l (l.length - 1) := by
  have hpos : 0 < l.length := List.length_pos.2 hne
  rw [List.getLast_eq_getElem]
  exact (hget_eq l (l.length - 1) (by omega)).symm

theorem length_hpush (h : List FileSize) (x : FileSize) :
    (hpush h x).length = h.length + 1 := by
  unfold hpush
  rw [length_up]
  simp

theorem perm_hpush (h : List FileSize) (x : FileSize) :
    (hpush h x).Perm (x :: h) := by
  unfold hpush
  exact (perm_up (h ++ [x]) h.length (by simp)).trans
    (List.perm_append_singleton x h)

theorem isHeap_hpush (h : List FileSize) (x : FileSize) (hh : IsHeap h) :
    IsHeap (hpush h x) := by
  unfold hpush
  apply up_correct
  · simp
  · intro k hk0 hklen hkne
    have hk : k < h.length := by
      simp at hklen
      omega
    rw [key, key, hget_append h x k hk, hget_append h x _ (by omega)]
    exact hh k hk hk0
  · intro c hclen hcch hs0
    simp at hclen
    exact absurd hclen (by omega)

theorem length_hpop (h : List FileSize) :
    (hpop h).2.length = h.length - 1 := by
  unfold hpop
  simp [length_down, length_hswap]

theorem fst_hpop (h : List FileSize) (hne : 0 < h.length) :
    (hpop h).1 = hget h 0 := by
  unfold hpop
  rw [hget_down_stable _ 0 (h.length - 1) (h.length - 1) le_rfl,
    hget_hswap_right h 0 (h.length - 1) (by omega)]

theorem perm_hpop (h : List FileSize) (hne : 0 < h.length) :
    h.Perm ((hpop h).1 :: (hpop h).2) := by
  show h.Perm
    (hget (down (hswap h 0 (h.length - 1)) 0 (h.length - 1)) (h.length - 1)
      :: (down (hswap h 0 (h.length - 1)) 0 (h.length - 1)).take (h.length - 1))
  have hlen2 : (down (hswap h 0 (h.length - 1)) 0 (h.length - 1)).length
      = h.length := by
    rw [length_down, length_hswap]
  have hne2 : down (hswap h 0 (h.length - 1)) 0 (h.length - 1) ≠ [] := by
    intro hc
    rw [hc] at hlen2
    simp at hlen2
    omega
  have hperm : (down (hswap h 0 (h.length - 1)) 0 (h.length - 1)).Perm h :=
    (perm_down _ 0 (h.length - 1) (by rw [length_hswap]; omega)).trans
      (perm_hswap h 0 (h.length - 1) hne (by omega))
  have hsplit := List.dropLast_append_getLast hne2
  rw [getLast_eq_hget _ hne2, List.dropLast_eq_take, hlen2] at hsplit
  refine hperm.symm.trans ?_
  conv_lhs => rw [← hsplit]
  exact List.perm_append_singleton _ _

theorem isHeap_hpop (h : List FileSize) (hne : 0 < h.length) (hh : IsHeap h) :
    IsHeap (hpop h).2 := by
  have hlen2 : (down (hswap h 0 (h.length - 1)) 0 (h.length - 1)).length
      = h.length := by
    rw [length_down, length_hswap]
  have hup : IsHeapUpTo (down (hswap h 0 (h.length - 1)) 0 (h.length - 1))
      (h.length - 1) := by
    apply down_correct
    · rw [length_hswap]
      omega
    · intro k hk0 hklt hpne
      rw [key, key, hget_hswap_other h 0 (h.length - 1) k (by omega) (by omega),
        hget_hswap_other h 0 (h.length - 1) _ (by omega) (by omega)]
      exact hh k (by omega) hk0
    · intro c hclt hcch hc0
      exact absurd hc0 (by omega)
  intro k hk hk0
  unfold hpop at hk ⊢
  simp only [List.length_take, hlen2] at hk
  have hkn : k < h.length - 1 := by omega
  rw [key, key, hget_take _ _ _ hkn, hget_take _ _ _ (by omega)]
  exact hup k hkn hk0

/-- A stream of offers into a tracker, starting from the empty heap that
analyzeDirectory allocates. -/
def OfferAll (cap : Nat) (xs : List FileSize) : List FileSize :=
  xs.foldl (Offer cap) []

theorem Offer_of_lt (cap : Nat) (h : List FileSize) (x : FileSize)
    (hlt : h.length < cap) : Offer cap h x = hpush h x := by
  unfold Offer
  rw [if_pos hlt]

theorem Offer_of_evict (cap : Nat) (h : List FileSize) (x : FileSize)
    (hge : ¬ h.length < cap) (hgt : key h 0 < x.Size) :
    Offer cap h x = hpush (hpop h).2 x := by
  unfold Offer
  rw [if_neg hge, if_pos hgt]

theorem Offer_of_keep (cap : Nat) (h : List FileSize) (x : FileSize)
    (hge : ¬ h.length < cap) (hle : ¬ key h 0 < x.Size) :
    Offer cap h x = h := by
  unfold Offer
  rw [if_neg hge, if_neg hle]

/-- The running invariant of the bounded Top-K tracker: after any stream of
offers the tracker is heap-ordered, holds min(N, capacity) items, and the
stream splits into the held items plus dropped items each of whose sizes is
at most every held size. -/
theorem offerAll_spec (cap : Nat) (hcap : 1 ≤ cap) (xs : List FileSize) :
    IsHeap (OfferAll cap xs) ∧
    (OfferAll cap xs).length = min xs.length cap ∧
    ∃ dropped : Multiset FileSize,
      (xs : Multiset FileSize) = (OfferAll cap xs : Multiset FileSize) + dropped ∧
      ∀ y ∈ dropped, ∀ z ∈ OfferAll cap xs, y.Size ≤ z.Size := by
  induction xs using List.reverseRecOn with
  | nil =>
    refine ⟨?_, by simp [OfferAll], 0, by simp [OfferAll], ?_⟩
    · intro k hk hk0
      simp [OfferAll] at hk
    · intro y hy
      exact absurd hy (Multiset.not_mem_zero y)
  | append_singleton xs x ih =>
    obtain ⟨hheap, hlen, dropped, hsum, hmem⟩ := ih
    have hfold : OfferAll cap (xs ++ [x]) = Offer cap (OfferAll cap xs) x := by
      unfold OfferAll
      rw [List.foldl_append]
      rfl
    by_cases hlt : (OfferAll cap xs).length < cap
    · have hxs_lt : xs.length < cap := by
        rw [hlen] at hlt
        omega
      have hdz : dropped = 0 := by
        have hcard := congrArg Multiset.card hsum
        rw [Multiset.coe_card, Multiset.card_add, Multiset.coe_card, hlen] at hcard
        rw [← Multiset.card_eq_zero]
        omega
      have hxsheld : (xs : Multiset FileSize) = (OfferAll cap xs : Multiset FileSize) := by
        rw [hsum, hdz, add_zero]
      have hpxs : xs.Perm (OfferAll cap xs) := Multiset.coe_eq_coe.1 hxsheld
      rw [hfold, Offer_of_lt _ _ _ hlt]
      refine ⟨isHeap_hpush _ _ hheap, ?_, 0, ?_, ?_⟩
      · rw [length_hpush, hlen]
        simp only [List.length_append, List.length_singleton]
        omega
      · rw [add_zero, Multiset.coe_eq_coe]
        exact ((List.perm_append_singleton x xs).trans (hpxs.cons x)).trans
          (perm_hpush _ x).symm
      · intro y hy
        exact absurd hy (Multiset.not_mem_zero y)
    · have hlenc : (OfferAll cap xs).length = cap := by omega
      have hxs_ge : cap ≤ xs.length := by omega
      have hpos : 0 < (OfferAll cap xs).length := by omega
      have hresz : (hget (OfferAll cap xs) 0).Size = key (OfferAll cap xs) 0 := rfl
      have hpermpop : (OfferAll cap xs).Perm
          ((hpop (OfferAll cap xs)).1 :: (hpop (OfferAll cap xs)).2) :=
        perm_hpop _ hpos
      have hrmem : hget (OfferAll cap xs) 0 ∈ OfferAll cap xs := by
        rw [← fst_hpop _ hpos]
        exact hpermpop.symm.subset (List.mem_cons_self _ _)
      have hrestmem : ∀ z ∈ (hpop (OfferAll cap xs)).2, z ∈ OfferAll cap xs := by
        intro z hz
        exact hpermpop.symm.subset (List.mem_cons_of_mem _ hz)
      by_cases hgt : key (OfferAll cap xs) 0 < x.Size
      · rw [hfold, Offer_of_evict _ _ _ hlt hgt]
        refine ⟨isHeap_hpush _ _ (isHeap_hpop _ hpos hheap), ?_,
          dropped + {hget (OfferAll cap xs) 0}, ?_, ?_⟩
        · rw [length_hpush, length_hpop, hlenc]
          simp only [List.length_append, List.length_singleton]
          omega
        · have hcoe1 : (OfferAll cap xs : Multiset FileSize)
              = hget (OfferAll cap xs) 0 ::ₘ ((hpop (OfferAll cap xs)).2 : Multiset FileSize) := by
            rw [Multiset.cons_coe, Multiset.coe_eq_coe]
            rw [← fst_hpop _ hpos]
            exact hpermpop
          have hcoe2 : (hpush (hpop (OfferAll cap xs)).2 x : Multiset FileSize)
              = x ::ₘ ((hpop (OfferAll cap xs)).2 : Multiset FileSize) := by
            rw [Multiset.cons_coe, Multiset.coe_eq_coe]
            exact perm_hpush _ x
          have hcoe3 : ((xs ++ [x] : List FileSize) : Multiset FileSize)
              = (xs : Multiset FileSize) + {x} := by
            rw [← Multiset.coe_singleton, Multiset.coe_add]
          rw [hcoe3, hsum, hcoe1, hcoe2, ← Multiset.singleton_add, ← Multiset.singleton_add]
          abel
        · intro y hy z hz
          have hzmem : z = x ∨ z ∈ (hpop (OfferAll cap xs)).2 := by
            have := (perm_hpush (hpop (OfferAll cap xs)).2 x).subset hz
            simpa using this
          rcases Multiset.mem_add.1 hy with hyd | hyr
          · rcases hzmem with rfl | hz2
            · have h1 : y.Size ≤ (hget (OfferAll cap xs) 0).Size :=
                hmem y hyd _ hrmem
              rw [hresz] at h1
              exact le_trans h1 (le_of_lt hgt)
            · exact hmem y hyd z (hrestmem z hz2)
          · rw [Multiset.mem_singleton.1 hyr]
            rcases hzmem with rfl | hz2
            · rw [hresz]
              exact le_of_lt hgt
            · rw [hresz]
              exact root_min _ hheap z (hrestmem z hz2)
      · rw [hfold, Offer_of_keep _ _ _ hlt hgt]
        refine ⟨hheap, ?_, dropped + {x}, ?_, ?_⟩
        · rw [hlenc]
          simp only [List.length_append, List.length_singleton]
          omega
        · have hcoe3 : ((xs ++ [x] : List FileSize) : Multiset FileSize)
              = (xs : Multiset FileSize) + {x} := by
            rw [← Multiset.coe_singleton, Multiset.coe_add]
          rw [hcoe3, hsum]
          abel
        · intro y hy z hz
          rcases Multiset.mem_add.1 hy with hyd | hyx
          · exact hmem y hyd z hz
          · rw [Multiset.mem_singleton.1 hyx]
            exact le_trans (not_lt.1 hgt) (root_min _ hheap z hz)

/-- ASCII lower-casing of one character.  strings.ToLower performs Unicode
simple case folding; on the ASCII inputs relevant to the claims the two
coincide, and only the ASCII range is modelled. -/
def lowerChar (c : Char) : Char :=
  if 'A' ≤ c ∧ c ≤ 'Z' then Char.ofNat (c.toNat + 32) else c

/-- strings.ToLower restricted to ASCII. -/
def lowerStr (s : String) : String := String.mk (s.toList.map lowerChar)

/-- filepath.Ext on a base name: the suffix beginning at the final dot,
empty when the name has no dot.  The Go function also stops at a path
separator; the modelled inputs are base names, which contain none. -/
def extChars (cs : List Char) : List Char :=
  match cs with
  | [] => []
  | c :: rest =>
    if extChars rest = [] then (if c = '.' then c :: rest else []) else extChars rest

/-- filepath.Base for the slash-free or slash-separated paths produced by
WalkDir (no trailing separators): the part after the last path separator. -/
def baseChars (cs : List Char) : List Char :=
  match cs with
  | [] => []
  | c :: rest =>
    if rest.contains '/' ∨ c = '/' then baseChars rest else c :: rest

/-- The whitespace test of strings.Fields; the Go version accepts all Unicode
space, of which only the ASCII spaces can occur in the modelled inputs. -/
def goSpace (c : Char) : Bool :=
  c = ' ' ∨ c = '\t' ∨ c = '\n' ∨ c = '\r'

/-- Accumulator loop behind strings.Fields: split at whitespace, dropping
empty fields. -/
def fieldsAux : List Char → List Char → List (List Char)
  | [], cur => if cur = [] then [] else [cur.reverse]
  | c :: rest, cur =>
    if goSpace c then
      if cur = [] then fieldsAux rest [] else cur.reverse :: fieldsAux rest []
    else fieldsAux rest (c :: cur)

/-- strings.Fields. -/
def fieldsChars (cs : List Char) : List (List Char) := fieldsAux cs []

/-- extractWords of src/main.go: strip the extension, replace comma,
underscore, hyphen and period by spaces, and split into fields. -/
def extractWords (filename : String) : List String :=
  (fieldsChars (((filename.toList).take
      (filename.toList.length - (extChars filename.toList).length)).map
    (fun c => if c = ',' ∨ c = '_' ∨ c = '-' ∨ c = '.' then ' ' else c))).map
    (fun w => String.mk w)

/-- The fixed system-file denylist of isSystemFile in the analyzer source of
this repository (src/unnamed/part_000 lines 367-381). -/
def systemFilesList : List String :=
  ["thumbs.db", "desktop.ini", ".ds_store",
   "hiberfil.sys", "pagefile.sys", "swapfile.sys",
   "system volume information", "recycler", "$recycle.bin"]

/-- isSystemFile of src/unnamed/part_000: exact case-insensitive match of the
file name against the denylist. -/
def isSystemFile (filename : String) : Bool :=
  systemFilesList.any (fun sys => lowerStr filename = sys)

/-- Go map increment m[k]++ on an association-list model of map[string]int;
a missing key reads as the zero value, so the first increment inserts 1. -/
def bump (m : List (String × Nat)) (k : String) : List (String × Nat) :=
  match m with
  | [] => [(k, 1)]
  | (k0, v) :: rest => if k0 = k then (k0, v + 1) :: rest else (k0, v) :: bump rest k

/-- Go map accumulation m[k] += v on a model of map[string]int64. -/
def addVal (m : List (String × Int)) (k : String) (v : Int) : List (String × Int) :=
  match m with
  | [] => [(k, v)]
  | (k0, v0) :: rest =>
    if k0 = k then (k0, v0 + v) :: rest else (k0, v0) :: addVal rest k v

/-- Go map increment on a model of map[int]int (the year histogram). -/
def bumpInt (m : List (Int × Nat)) (k : Int) : List (Int × Nat) :=
  match m with
  | [] => [(k, 1)]
  | (k0, v) :: rest => if k0 = k then (k0, v + 1) :: rest else (k0, v) :: bumpInt rest k

/-- The sum of all counts stored in a frequency map. -/
def msum (m : List (String × Nat)) : Nat := (m.map Prod.snd).sum

/-- Read of the per-type heap pointer map: a missing key is Go nil, which
processFile immediately replaces with a fresh empty heap. -/
def getHeap (m : List (String × List FileSize)) (k : String) : List FileSize :=
  (m.lookup k).getD []

/-- Store of a per-type heap under its extension key. -/
def setHeap (m : List (String × List FileSize)) (k : String) (h : List FileSize) :
    List (String × List FileSize) :=
  match m with
  | [] => [(k, h)]
  | (k0, h0) :: rest =>
    if k0 = k then (k0, h) :: rest else (k0, h0) :: setHeap rest k h

/-- struct FileAge of src/main.go, with time.Time modelled as Unix
nanoseconds. -/
structure FileAge where
  Path : String
  ModTime : Int
  IsCreate : Bool
deriving DecidableEq

/-- The metadata of one regular file as seen by processFile: the walk path,
the os.FileInfo fields the code reads (Size, permission bits of Mode, the
symlink mode bit, ModTime as Unix nanoseconds), the calendar year of the
modification time (the code computes it with time.Time.Year, which is not
re-modelled), and the days-since-access figure the code derives from the
platform access time when syscall.Stat_t is available (float truncation not
re-modelled). -/
structure FileObs where
  path : String
  size : Int
  mode : Nat
  isSymlink : Bool
  modTime : Int
  modYear : Int
  daysSinceAccess : Option Int
deriving DecidableEq

/-- struct Stats of src/main.go: the shared aggregate.  Maps are modelled as
association lists, the two heaps as their backing slices, and the mutex
(which serialises merges but does not affect their values) is not a field. -/
structure Stats where
  WordFreq : List (String × Nat)
  TypeFreq : List (String × Nat)
  TypeSizes : List (String × Int)
  Permissions : List (String × Nat)
  RecentMods : Nat
  TotalFiles : Nat
  TotalSize : Int
  LargestFiles : List FileSize
  LargestByType : List (String × List FileSize)
  EmptyFiles : Nat
  SizeDistribution : List (String × Nat)
  DirDepths : List (String × Nat)
  FilesPerDir : List (String × Nat)
  EmptyDirs : Nat
  OldestFile : Option FileAge
  NewestFile : Option FileAge
  YearDistribution : List (Int × Nat)
  StaleFiles : Nat
  HiddenFiles : Nat
  SystemFiles : Nat
  Symlinks : Nat
  AccessTimes : List (String × Nat)
  WriteProtected : Nat
  TotalDirs : Nat
deriving DecidableEq

/-- The fresh aggregate allocated at the top of analyzeDirectory: empty maps
and heaps, zero counters, no extremum records. -/
def statsInit : Stats where
  WordFreq := []
  TypeFreq := []
  TypeSizes := []
  Permissions := []
  RecentMods := 0
  TotalFiles := 0
  TotalSize := 0
  LargestFiles := []
  LargestByType := []
  EmptyFiles := 0
  SizeDistribution := []
  DirDepths := []
  FilesPerDir := []
  EmptyDirs := 0
  OldestFile := none
  NewestFile := none
  YearDistribution := []
  StaleFiles := 0
  HiddenFiles := 0
  SystemFiles := 0
  Symlinks := 0
  AccessTimes := []
  WriteProtected := 0
  TotalDirs := 0

/-- Nanoseconds per hour: time.Hour as an int64 duration. -/
def nsPerHour : Int := 3600 * 1000000000

/-- processFilePermissions of src/main.go. -/
def processFilePermissions (mode : Nat) (s : Stats) : Stats :=
  let s1 := if mode &&& 0o111 ≠ 0
    then { s with Permissions := bump s.Permissions "executable" } else s
  if mode &&& 0o200 = 0 then
    { s1 with Permissions := bump s1.Permissions "read-only",
              WriteProtected := s1.WriteProtected + 1 }
  else s1

/-- The four half-open size buckets of analyzeSizes in src/main.go. -/
def sizeBucket (size : Int) : String :=
  if size < 1024 then "tiny"
  else if size < 1024 * 1024 then "small"
  else if size < 100 * 1024 * 1024 then "medium"
  else "large"

/-- analyzeSizes of src/main.go: count empty files and bump exactly one size
bucket. -/
def analyzeSizes (size : Int) (s : Stats) : Stats :=
  let s1 := if size = 0 then { s with EmptyFiles := s.EmptyFiles + 1 } else s
  { s1 with SizeDistribution := bump s1.SizeDistribution (sizeBucket size) }

/-- analyzeAge of src/main.go: oldest/newest extremum records (strict
comparisons, so the first arrival wins ties), year histogram, and the stale
counter with its fixed 180-day cutoff. -/
def analyzeAge (now : Int) (o : FileObs) (s : Stats) : Stats :=
  let s1 :=
    match s.OldestFile with
    | none => { s with OldestFile := some (FileAge.mk o.path o.modTime false) }
    | some f =>
      if o.modTime < f.ModTime
      then { s with OldestFile := some (FileAge.mk o.path o.modTime false) }
      else s
  let s2 :=
    match s1.NewestFile with
    | none => { s1 with NewestFile := some (FileAge.mk o.path o.modTime false) }
    | some f =>
      if f.ModTime < o.modTime
      then { s1 with NewestFile := some (FileAge.mk o.path o.modTime false) }
      else s1
  let s3 := { s2 with YearDistribution := bumpInt s2.YearDistribution o.modYear }
  if 6 * 30 * 24 * nsPerHour < now - o.modTime
  then { s3 with StaleFiles := s3.StaleFiles + 1 }
  else s3

/-- strings.HasPrefix(name, ".") specialised to the one-character prefix the
code uses: true exactly when the first character is a dot. -/
def leadingDot (cs : List Char) : Bool :=
  match cs with
  | [] => false
  | c :: _ => c = '.'

/-- analyzeSpecialFiles of src/main.go (lines 634-645): hidden names and
symlinks only.  Unlike the earlier revision of the analyzer kept in this
repository, this version never consults the system-file denylist, so
Stats.SystemFiles is not touched here or anywhere else. -/
def analyzeSpecialFiles (o : FileObs) (s : Stats) : Stats :=
  let s1 := if leadingDot (baseChars o.path.toList)
    then { s with HiddenFiles := s.HiddenFiles + 1 } else s
  if o.isSymlink then { s1 with Symlinks := s1.Symlinks + 1 } else s1

/-- The four access-recency buckets of analyzeAccessPatterns in
src/main.go. -/
def accessBucket (d : Int) : String :=
  if d ≤ 7 then "last 7 days"
  else if d ≤ 30 then "last 30 days"
  else if d ≤ 90 then "last 90 days"
  else "older than 90 days"

/-- analyzeAccessPatterns of src/main.go: files without platform access-time
data contribute to no bucket. -/
def analyzeAccessPatterns (o : FileObs) (s : Stats) : Stats :=
  match o.daysSinceAccess with
  | none => s
  | some d => { s with AccessTimes := bump s.AccessTimes (accessBucket d) }

/-- The body of the word-frequency loop of processFile: count the lower-cased
word when its length exceeds 1. -/
def noteWord (s : Stats) (w : String) : Stats :=
  if 1 < w.length then { s with WordFreq := bump s.WordFreq (lowerStr w) } else s

/-- processFile of src/main.go lines 529-584: the merge of one classified
file observation into the aggregate, performed under the Stats lock.  now is
the scan-time clock reading used by the time.Since calls. -/
def processFile (now : Int) (maxFiles : Nat) (o : FileObs) (s : Stats) : Stats :=
  let s1 := { s with TotalFiles := s.TotalFiles + 1, TotalSize := s.TotalSize + o.size }
  let filename := String.mk (baseChars o.path.toList)
  let ext0 := lowerStr (String.mk (extChars filename.toList))
  let ext := if ext0 = "" then "no extension" else ext0
  let s2 := (extractWords filename).foldl noteWord s1
  let s3 := { s2 with TypeFreq := bump s2.TypeFreq ext,
                      TypeSizes := addVal s2.TypeSizes ext o.size }
  let lf := Offer maxFiles s3.LargestFiles (FileSize.mk o.path o.size ext)
  let s4 := { s3 with LargestFiles := lf }
  let th := Offer (min maxFiles 10) (getHeap s4.LargestByType ext)
    (FileSize.mk o.path o.size ext)
  let s5 := { s4 with LargestByType := setHeap s4.LargestByType ext th }
  let s6 := processFilePermissions o.mode s5
  let s7 := if now - o.modTime ≤ 30 * 24 * nsPerHour
    then { s6 with RecentMods := s6.RecentMods + 1 } else s6
  let s8 := analyzeSizes o.size s7
  let s9 := analyzeAge now o s8
  let s10 := analyzeSpecialFiles o s9
  analyzeAccessPatterns o s10

/-- A whole scan of file observations: every file observation of the run
merged into the fresh aggregate via processFile. -/
def runScan (now : Int) (maxFiles : Nat) (obs : List FileObs) : Stats :=
  obs.foldl (fun s o => processFile now maxFiles o s) statsInit

/-- The extension key under which processFile files one observation:
lower-cased extension of the base name, with the sentinel for an empty
extension. -/
def extKey (o : FileObs) : String :=
  let filename := String.mk (baseChars o.path.toList)
  let ext0 := lowerStr (String.mk (extChars filename.toList))
  if ext0 = "" then "no extension" else ext0

theorem msum_bump (m : List (String × Nat)) (k : String) :
    msum (bump m k) = msum m + 1 := by
  induction m with
  | nil => simp [bump, msum]
  | cons p rest ih =>
    obtain ⟨k0, v⟩ := p
    unfold bump
    split
    · simp [msum]
      omega
    · simp only [msum, List.map_cons, List.sum_cons] at ih ⊢
      omega

theorem noteWord_fields (s : Stats) (w : String) :
    (noteWord s w).TotalFiles = s.TotalFiles ∧
    (noteWord s w).TypeFreq = s.TypeFreq ∧
    (noteWord s w).SizeDistribution = s.SizeDistribution ∧
    (noteWord s w).SystemFiles = s.SystemFiles ∧
    (noteWord s w).LargestFiles = s.LargestFiles ∧
    (noteWord s w).LargestByType = s.LargestByType := by
  unfold noteWord
  split
  · exact ⟨rfl, rfl, rfl, rfl, rfl, rfl⟩
  · exact ⟨rfl, rfl, rfl, rfl, rfl, rfl⟩

theorem noteWords_fields (ws : List String) (s : Stats) :
    (ws.foldl noteWord s).TotalFiles = s.TotalFiles ∧
    (ws.foldl noteWord s).TypeFreq = s.TypeFreq ∧
    (ws.foldl noteWord s).SizeDistribution = s.SizeDistribution ∧
    (ws.foldl noteWord s).SystemFiles = s.SystemFiles ∧
    (ws.foldl noteWord s).LargestFiles = s.LargestFiles ∧
    (ws.foldl noteWord s).LargestByType = s.LargestByType := by
  induction ws generalizing s with
  | nil => exact ⟨rfl, rfl, rfl, rfl, rfl, rfl⟩
  | cons w ws ih =>
    rw [List.foldl_cons]
    obtain ⟨i1, i2, i3, i4, i5, i6⟩ := ih (noteWord s w)
    obtain ⟨n1, n2, n3, n4, n5, n6⟩ := noteWord_fields s w
    exact ⟨i1.trans n1, i2.trans n2, i3.trans n3, i4.trans n4,
      i5.trans n5, i6.trans n6⟩

theorem perm_fields (mode : Nat) (s : Stats) :
    (processFilePermissions mode s).TotalFiles = s.TotalFiles ∧
    (processFilePermissions mode s).TypeFreq = s.TypeFreq ∧
    (processFilePermissions mode s).SizeDistribution = s.SizeDistribution ∧
    (processFilePermissions mode s).SystemFiles = s.SystemFiles ∧
    (processFilePermissions mode s).LargestFiles = s.LargestFiles ∧
    (processFilePermissions mode s).LargestByType = s.LargestByType := by
  simp only [processFilePermissions]
  split_ifs <;> exact ⟨rfl, rfl, rfl, rfl, rfl, rfl⟩

theorem sizes_fields (size : Int) (s : Stats) :
    (analyzeSizes size s).TotalFiles = s.TotalFiles ∧
    (analyzeSizes size s).TypeFreq = s.TypeFreq ∧
    (analyzeSizes size s).SizeDistribution
      = bump s.SizeDistribution (sizeBucket size) ∧
    (analyzeSizes size s).SystemFiles = s.SystemFiles ∧
    (analyzeSizes size s).LargestFiles = s.LargestFiles ∧
    (analyzeSizes size s).LargestByType = s.LargestByType := by
  simp only [analyzeSizes]
  split_ifs <;> exact ⟨rfl, rfl, rfl, rfl, rfl, rfl⟩

theorem age_fields (now : Int) (o : FileObs) (s : Stats) :
    (analyzeAge now o s).TotalFiles = s.TotalFiles ∧
    (analyzeAge now o s).TypeFreq = s.TypeFreq ∧
    (analyzeAge now o s).SizeDistribution = s.SizeDistribution ∧
    (analyzeAge now o s).SystemFiles = s.SystemFiles ∧
    (analyzeAge now o s).LargestFiles = s.LargestFiles ∧
    (analyzeAge now o s).LargestByType = s.LargestByType := by
  simp only [analyzeAge]
  repeat' split
  all_goals exact ⟨rfl, rfl, rfl, rfl, rfl, rfl⟩

theorem special_fields (o : FileObs) (s : Stats) :
    (analyzeSpecialFiles o s).TotalFiles = s.TotalFiles ∧
    (analyzeSpecialFiles o s).TypeFreq = s.TypeFreq ∧
    (analyzeSpecialFiles o s).SizeDistribution = s.SizeDistribution ∧
    (analyzeSpecialFiles o s).SystemFiles = s.SystemFiles ∧
    (analyzeSpecialFiles o s).LargestFiles = s.LargestFiles ∧
    (analyzeSpecialFiles o s).LargestByType = s.LargestByType := by
  simp only [analyzeSpecialFiles]
  split_ifs <;> exact ⟨rfl, rfl, rfl, rfl, rfl, rfl⟩

theorem access_fields (o : FileObs) (s : Stats) :
    (analyzeAccessPatterns o s).TotalFiles = s.TotalFiles ∧
    (analyzeAccessPatterns o s).TypeFreq = s.TypeFreq ∧
    (analyzeAccessPatterns o s).SizeDistribution = s.SizeDistribution ∧
    (analyzeAccessPatterns o s).SystemFiles = s.SystemFiles ∧
    (analyzeAccessPatterns o s).LargestFiles = s.LargestFiles ∧
    (analyzeAccessPatterns o s).LargestByType = s.LargestByType := by
  simp only [analyzeAccessPatterns]
  split
  · exact ⟨rfl, rfl, rfl, rfl, rfl, rfl⟩
  · exact ⟨rfl, rfl, rfl, rfl, rfl, rfl⟩

/-- The effect of one processFile merge on the fields the claims track: the
file count advances by one, the type histogram and the size-bucket histogram
each receive exactly one bump, the system-file counter is untouched, and the
two trackers each receive exactly one offer. -/
theorem processFile_fields (now : Int) (maxFiles : Nat) (o : FileObs) (s : Stats) :
    (processFile now maxFiles o s).TotalFiles = s.TotalFiles + 1 ∧
    (processFile now maxFiles o s).TypeFreq = bump s.TypeFreq (extKey o) ∧
    (processFile now maxFiles o s).SizeDistribution
      = bump s.SizeDistribution (sizeBucket o.size) ∧
    (processFile now maxFiles o s).SystemFiles = s.SystemFiles ∧
    (processFile now maxFiles o s).LargestFiles
      = Offer maxFiles s.LargestFiles (FileSize.mk o.path o.size (extKey o)) ∧
    (processFile now maxFiles o s).LargestByType
      = setHeap s.LargestByType (extKey o)
        (Offer (min maxFiles 10) (getHeap s.LargestByType (extKey o))
          (FileSize.mk o.path o.size (extKey o))) := by
  simp only [processFile, extKey]
  split_ifs
  all_goals simp only [access_fields, special_fields, age_fields, sizes_fields,
    perm_fields, noteWords_fields]
  all_goals refine ⟨?_, ?_, ?_, ?_, ?_, ?_⟩ <;> trivial

/-- Go map read m[k] on the association-list model: a missing key reads as
the zero value. -/
def mget (m : List (String × Nat)) (k : String) : Nat := (m.lookup k).getD 0

/-- The default value of the --count flag declared in main
(src/main.go line 349). -/
def defaultCount : Int := 3

/-- C2: for every scan, the completed aggregate satisfies TotalFiles equal to
the sum of the extension frequencies and the sum of the size-bucket counts
equal to TotalFiles, and both equalities are preserved by every individual
processFile merge. -/
theorem C2_aggregate_invariants (now : Int) (maxFiles : Nat) (obs : List FileObs) :
    ((runScan now maxFiles obs).TotalFiles
        = msum (runScan now maxFiles obs).TypeFreq ∧
      msum (runScan now maxFiles obs).SizeDistribution
        = (runScan now maxFiles obs).TotalFiles) ∧
    ∀ s o,
      (s.TotalFiles = msum s.TypeFreq →
        (processFile now maxFiles o s).TotalFiles
          = msum (processFile now maxFiles o s).TypeFreq) ∧
      (msum s.SizeDistribution = s.TotalFiles →
        msum (processFile now maxFiles o s).SizeDistribution
          = (processFile now maxFiles o s).TotalFiles) := by
  have hstep : ∀ s o,
      (processFile now maxFiles o s).TotalFiles = s.TotalFiles + 1 ∧
      msum (processFile now maxFiles o s).TypeFreq = msum s.TypeFreq + 1 ∧
      msum (processFile now maxFiles o s).SizeDistribution
        = msum s.SizeDistribution + 1 := by
    intro s o
    obtain ⟨h1, h2, h3, _, _, _⟩ := processFile_fields now maxFiles o s
    exact ⟨h1, by rw [h2, msum_bump], by rw [h3, msum_bump]⟩
  have hfold : ∀ (l : List FileObs) (s : Stats),
      (s.TotalFiles = msum s.TypeFreq ∧ msum s.SizeDistribution = s.TotalFiles) →
      ((l.foldl (fun s o => processFile now maxFiles o s) s).TotalFiles
          = msum (l.foldl (fun s o => processFile now maxFiles o s) s).TypeFreq ∧
        msum (l.foldl (fun s o => processFile now maxFiles o s) s).SizeDistribution
          = (l.foldl (fun s o => processFile now maxFiles o s) s).TotalFiles) := by
    intro l
    induction l with
    | nil => exact fun s hs => hs
    | cons o l ih =>
      intro s hs
      rw [List.foldl_cons]
      apply ih
      obtain ⟨h1, h2, h3⟩ := hstep s o
      exact ⟨by rw [h1, h2, hs.1], by rw [h3, h1, hs.2]⟩
  refine ⟨hfold obs statsInit ⟨rfl, rfl⟩, ?_⟩
  intro s o
  obtain ⟨h1, h2, h3⟩ := hstep s o
  exact ⟨fun hs => by rw [h1, h2, hs], fun hs => by rw [h3, h1, hs]⟩

theorem C2_aggregate_invariants_witness :
    statsInit.TotalFiles = msum statsInit.TypeFreq ∧
    (processFile 0 10 (FileObs.mk "a.txt" 5 420 false 0 1970 none) statsInit).TotalFiles
      = msum (processFile 0 10 (FileObs.mk "a.txt" 5 420 false 0 1970 none)
          statsInit).TypeFreq :=
  ⟨rfl, ((C2_aggregate_invariants 0 10 []).2 statsInit
    (FileObs.mk "a.txt" 5 420 false 0 1970 none)).1 rfl⟩

/-- C3: the denylist does classify thumbs.db as a system file, but the
processFile merge of src/main.go never increments Stats.SystemFiles for any
observation, so a scan over a directory containing thumbs.db reports zero
system files.  The claim describes the earlier revision of
analyzeSpecialFiles, which the current source dropped while keeping the
counter and its display. -/
theorem C3_system_files_never_counted (now : Int) (maxFiles : Nat)
    (o : FileObs) (s : Stats) :
    isSystemFile "thumbs.db" = true ∧
    (processFile now maxFiles o s).SystemFiles = s.SystemFiles ∧
    (runScan 0 10 [FileObs.mk "thumbs.db" 1 420 false 0 1970 none]).SystemFiles
      = 0 := by
  refine ⟨by decide, (processFile_fields now maxFiles o s).2.2.2.1, ?_⟩
  show (processFile 0 10 (FileObs.mk "thumbs.db" 1 420 false 0 1970 none)
    statsInit).SystemFiles = 0
  exact (processFile_fields 0 10 _ statsInit).2.2.2.1

/-- C4: the --count flag of main defaults to 3, not to the 10 stated by the
claim and by the README, and no minimum of 1 is enforced anywhere. -/
theorem C4_default_count : defaultCount = 3 ∧ ¬ defaultCount = 10 :=
  ⟨rfl, by decide⟩

/-- C7: the size bucketer uses the four half-open thresholds of analyzeSizes,
and the concrete three-file directory scanned with a capacity-2 tracker
yields buckets tiny 1, small 1, medium 1, large 0 and holds exactly the files
of sizes 2048 and 5000000. -/
theorem C7_size_buckets :
    (∀ size : Int,
      (sizeBucket size = "tiny" ↔ size < 1024) ∧
      (sizeBucket size = "small" ↔ 1024 ≤ size ∧ size < 1048576) ∧
      (sizeBucket size = "medium" ↔ 1048576 ≤ size ∧ size < 104857600) ∧
      (sizeBucket size = "large" ↔ 104857600 ≤ size)) ∧
    (runScan 0 2 [FileObs.mk "f1" 10 420 false 0 1970 none,
        FileObs.mk "f2.dat" 2048 420 false 0 1970 none,
        FileObs.mk "f3.dat" 5000000 420 false 0 1970 none]).SizeDistribution
      = [("tiny", 1), ("small", 1), ("medium", 1)] ∧
    mget (runScan 0 2 [FileObs.mk "f1" 10 420 false 0 1970 none,
        FileObs.mk "f2.dat" 2048 420 false 0 1970 none,
        FileObs.mk "f3.dat" 5000000 420 false 0 1970 none]).SizeDistribution
      "large" = 0 ∧
    ((runScan 0 2 [FileObs.mk "f1" 10 420 false 0 1970 none,
        FileObs.mk "f2.dat" 2048 420 false 0 1970 none,
        FileObs.mk "f3.dat" 5000000 420 false 0 1970 none]).LargestFiles.map
      FileSize.Size : Multiset Int) = {2048, 5000000} := by
  refine ⟨fun size => ?_, by decide, by decide, ?_⟩
  · unfold sizeBucket
    split_ifs <;> refine ⟨?_, ?_, ?_, ?_⟩ <;> simp <;> omega
  · show ((processFile 0 2 (FileObs.mk "f3.dat" 5000000 420 false 0 1970 none)
        (processFile 0 2 (FileObs.mk "f2.dat" 2048 420 false 0 1970 none)
          (processFile 0 2 (FileObs.mk "f1" 10 420 false 0 1970 none)
            statsInit))).LargestFiles.map FileSize.Size : Multiset Int)
      = {2048, 5000000}
    rw [(processFile_fields 0 2 _ _).2.2.2.2.1,
      (processFile_fields 0 2 _ _).2.2.2.2.1,
      (processFile_fields 0 2 _ _).2.2.2.2.1]
    simp [Offer, hpush, hpop, up, down, hswap, hget, key, fszero, statsInit]
    rfl

/-- C8: the tokenizer splits the extension-stripped filename on comma,
underscore, hyphen and period; the counted tokens are the lower-cased tokens
of length at least 2, and the concrete filename yields exactly my, report,
2023, final. -/
theorem C8_filename_tokenizer :
    extractWords "My_Report-2023.final.txt" = ["My", "Report", "2023", "final"] ∧
    (runScan 0 10 [FileObs.mk "My_Report-2023.final.txt" 7 420 false 0 1970
        none]).WordFreq
      = [("my", 1), ("report", 1), ("2023", 1), ("final", 1)] ∧
    ∀ filename w,
      w ∈ ((extractWords filename).filter (fun w => 1 < w.length)).map lowerStr →
      2 ≤ w.length := by
  refine ⟨by decide, by decide, ?_⟩
  intro filename w hw
  rw [List.mem_map] at hw
  obtain ⟨v, hv, rfl⟩ := hw
  rw [List.mem_filter] at hv
  have hlen : 1 < v.length := by
    have := hv.2
    simpa using this
  have hll : (lowerStr v).length = v.length := by
    show (v.toList.map lowerChar).length = v.toList.length
    rw [List.length_map]
  omega

theorem C8_filename_tokenizer_witness :
    "my" ∈ ((extractWords "My_Report-2023.final.txt").filter
      (fun w => 1 < w.length)).map lowerStr ∧
    2 ≤ ("my" : String).length :=
  ⟨by decide, C8_filename_tokenizer.2.2 "My_Report-2023.final.txt" "my"
    (by decide)⟩

theorem length_Offer_le (cap : Nat) (h : List FileSize) (x : FileSize)
    (hcap : 1 ≤ cap) (hle : h.length ≤ cap) : (Offer cap h x).length ≤ cap := by
  unfold Offer
  split_ifs with h1 h2
  · rw [length_hpush]
    omega
  · rw [length_hpush, length_hpop]
    omega
  · exact hle

theorem mem_setHeap (m : List (String × List FileSize)) (k : String)
    (h : List FileSize) (p : String × List FileSize) (hp : p ∈ setHeap m k h) :
    p.2 = h ∨ p ∈ m := by
  induction m with
  | nil =>
    unfold setHeap at hp
    rw [List.mem_singleton] at hp
    subst hp
    left
    rfl
  | cons q rest ih =>
    obtain ⟨k0, h0⟩ := q
    unfold setHeap at hp
    by_cases hk : k0 = k
    · rw [if_pos hk] at hp
      rcases List.mem_cons.1 hp with rfl | hmem
      · left
        rfl
      · right
        exact List.mem_cons_of_mem _ hmem
    · rw [if_neg hk] at hp
      rcases List.mem_cons.1 hp with rfl | hmem
      · right
        exact List.mem_cons_self _ _
      · rcases ih hmem with he | hm
        · left
          exact he
        · right
          exact List.mem_cons_of_mem _ hm

theorem getHeap_cases (m : List (String × List FileSize)) (k : String) :
    getHeap m k = [] ∨ ∃ p ∈ m, getHeap m k = p.2 := by
  induction m with
  | nil =>
    left
    rfl
  | cons q rest ih =>
    obtain ⟨k0, h0⟩ := q
    by_cases hk : k = k0
    · right
      refine ⟨(k0, h0), List.mem_cons_self _ _, ?_⟩
      show (List.lookup k ((k0, h0) :: rest)).getD [] = h0
      simp [List.lookup, hk]
    · have hb : (k == k0) = false := beq_eq_false_iff_ne.2 hk
      have hl : List.lookup k ((k0, h0) :: rest) = List.lookup k rest := by
        simp [List.lookup, hb]
      have hgh : getHeap ((k0, h0) :: rest) k = getHeap rest k := by
        show (List.lookup k ((k0, h0) :: rest)).getD [] = getHeap rest k
        rw [hl]
        rfl
      rw [hgh]
      rcases ih with h1 | ⟨p, hpmem, hpe⟩
      · left
        exact h1
      · right
        exact ⟨p, List.mem_cons_of_mem _ hpmem, hpe⟩

/-- C10: with Top-K capacity count of at least 1, every per-extension tracker
in LargestByType holds at most min(count, 10) items after any scan, while the
global tracker holds at most count. -/
theorem C10_per_type_cap (count : Nat) (hc : 1 ≤ count) (now : Int)
    (obs : List FileObs) :
    (∀ p ∈ (runScan now count obs).LargestByType, p.2.length ≤ min count 10) ∧
    (runScan now count obs).LargestFiles.length ≤ count := by
  have hmin : 1 ≤ min count 10 := by omega
  have hstep : ∀ s o,
      ((∀ p ∈ s.LargestByType, p.2.length ≤ min count 10) ∧
        s.LargestFiles.length ≤ count) →
      ((∀ p ∈ (processFile now count o s).LargestByType,
          p.2.length ≤ min count 10) ∧
        (processFile now count o s).LargestFiles.length ≤ count) := by
    intro s o hinv
    obtain ⟨hbt, hlf⟩ := hinv
    obtain ⟨-, -, -, -, h5, h6⟩ := processFile_fields now count o s
    constructor
    · intro p hp
      rw [h6] at hp
      rcases mem_setHeap _ _ _ p hp with hpe | hpm
      · rw [hpe]
        apply length_Offer_le _ _ _ hmin
        rcases getHeap_cases s.LargestByType (extKey o) with hnil | ⟨q, hq, hqe⟩
        · rw [hnil]
          simp
        · rw [hqe]
          exact hbt q hq
      · exact hbt p hpm
    · rw [h5]
      exact length_Offer_le _ _ _ hc hlf
  have hfold : ∀ (l : List FileObs) (s : Stats),
      ((∀ p ∈ s.LargestByType, p.2.length ≤ min count 10) ∧
        s.LargestFiles.length ≤ count) →
      ((∀ p ∈ (l.foldl (fun s o => processFile now count o s) s).LargestByType,
          p.2.length ≤ min count 10) ∧
        (l.foldl (fun s o => processFile now count o s) s).LargestFiles.length
          ≤ count) := by
    intro l
    induction l with
    | nil => exact fun s hs => hs
    | cons o l ih =>
      intro s hs
      rw [List.foldl_cons]
      exact ih _ (hstep s o hs)
  refine hfold obs statsInit ⟨?_, ?_⟩
  · intro p hp
    exact absurd hp (List.not_mem_nil p)
  · show (0 : Nat) ≤ count
    omega

theorem C10_per_type_cap_witness :
    1 ≤ 12 ∧
    ((∀ p ∈ (runScan 0 12 [FileObs.mk "a.txt" 5 420 false 0 1970
        none]).LargestByType, p.2.length ≤ min 12 10) ∧
      (runScan 0 12 [FileObs.mk "a.txt" 5 420 false 0 1970
        none]).LargestFiles.length ≤ 12) :=
  ⟨by decide, C10_per_type_cap 12 (by decide) 0
    [FileObs.mk "a.txt" 5 420 false 0 1970 none]⟩

/-- C1: the bounded Top-K tracker with capacity K of at least 1 holds exactly
min(N, K) items after any stream of N offers, and the held items are the K
largest by size among the stream, in the multiset sense that every item not
held is no larger than every held item; moreover each single offer inserts
unconditionally while the tracker is below capacity, and at capacity it
evicts the current minimum (the heap root, which is minimal among the held
items) and inserts exactly when the new size is strictly greater than that
minimum, leaving the tracker unchanged otherwise. -/
theorem C1_bounded_topk (K : Nat) (hK : 1 ≤ K) (xs : List FileSize) :
    (OfferAll K xs).length = min xs.length K ∧
    (∃ dropped : Multiset FileSize,
      (xs : Multiset FileSize) = (OfferAll K xs : Multiset FileSize) + dropped ∧
      ∀ y ∈ dropped, ∀ z ∈ OfferAll K xs, y.Size ≤ z.Size) ∧
    (∀ h x, h.length < K →
      (Offer K h x : Multiset FileSize) = x ::ₘ (h : Multiset FileSize)) ∧
    (∀ h x, IsHeap h → h.length = K →
      (∀ z ∈ h, key h 0 ≤ z.Size) ∧
      (¬ key h 0 < x.Size → Offer K h x = h) ∧
      (key h 0 < x.Size →
        (Offer K h x : Multiset FileSize) + {hget h 0}
          = x ::ₘ (h : Multiset FileSize))) := by
  obtain ⟨hheap, hlen, hdrop⟩ := offerAll_spec K hK xs
  refine ⟨hlen, hdrop, ?_, ?_⟩
  · intro h x hlt
    rw [Offer_of_lt _ _ _ hlt, Multiset.cons_coe, Multiset.coe_eq_coe]
    exact perm_hpush h x
  · intro h x hh hcap
    have hge : ¬ h.length < K := by omega
    have hpos : 0 < h.length := by omega
    refine ⟨fun z hz => root_min h hh z hz, fun hle => Offer_of_keep _ _ _ hge hle,
      fun hgt => ?_⟩
    rw [Offer_of_evict _ _ _ hge hgt]
    have hcoe1 : (h : Multiset FileSize)
        = hget h 0 ::ₘ ((hpop h).2 : Multiset FileSize) := by
      rw [Multiset.cons_coe, Multiset.coe_eq_coe, ← fst_hpop _ hpos]
      exact perm_hpop h hpos
    have hcoe2 : (hpush (hpop h).2 x : Multiset FileSize)
        = x ::ₘ ((hpop h).2 : Multiset FileSize) := by
      rw [Multiset.cons_coe, Multiset.coe_eq_coe]
      exact perm_hpush _ x
    rw [hcoe2, hcoe1, ← Multiset.singleton_add, ← Multiset.singleton_add,
      ← Multiset.singleton_add]
    abel

theorem C1_bounded_topk_witness :
    1 ≤ 2 ∧
    (OfferAll 2 [FileSize.mk "a" 10 "", FileSize.mk "b" 2048 "",
      FileSize.mk "c" 5000000 ""]).length
      = min [FileSize.mk "a" 10 "", FileSize.mk "b" 2048 "",
          FileSize.mk "c" 5000000 ""].length 2 :=
  ⟨by decide, (C1_bounded_topk 2 (by decide) [FileSize.mk "a" 10 "",
    FileSize.mk "b" 2048 "", FileSize.mk "c" 5000000 ""]).1⟩

/-- One invocation of the phase-2 WalkDir callback of analyzeDirectory:
either a node visited successfully (err is nil) or a node whose visit
reports a traversal error (err non-nil).  When the producer cannot even open
the root, WalkDir makes a single errored invocation for the root itself. -/
inductive WalkEvent where
  | node (path : String)
  | failure (path : String)
deriving DecidableEq

/-- The callback body of src/main.go lines 446-456 with the cancellation
signal not fired: an errored node returns nil, so the error is skipped; a
successful node sends its path into the channel and returns nil.  The first
component is the path sent, the second the error returned. -/
def walkFn (ev : WalkEvent) : Option String × Option String :=
  match ev with
  | .failure _ => (none, none)
  | .node p => (some p, none)

/-- filepath.WalkDir driving the callback over its visit sequence: the sent
paths are collected in order and the walk stops at, and returns, the first
non-nil callback result. -/
def runWalk (events : List WalkEvent) : List String × Option String :=
  match events with
  | [] => ([], none)
  | ev :: rest =>
    match walkFn ev with
    | (sent, some e) => (sent.toList, some e)
    | (sent, none) => (sent.toList ++ (runWalk rest).1, (runWalk rest).2)

/-- The visit sequence WalkDir produces when the producer cannot even open
the root path: one callback invocation for the root carrying the error. -/
def rootFailEvents (root : String) : List WalkEvent := [WalkEvent.failure root]

/-- The terminal error of analyzeDirectory: g.Wait() returns the first error
among the workers and the walk goroutine; without cancellation the workers
return nil once the channel closes and drains, so the run's error is
whatever the walk returned. -/
def analyzeDirectoryError (events : List WalkEvent) : Option String :=
  (runWalk events).2

/-- C5 counterexample: when the root cannot be opened, the callback swallows
the error, analyzeDirectory's walk returns nil, and no path is ever
delivered, so the run completes without error over an empty aggregate rather
than propagating the root error. -/
theorem C5_root_error_swallowed :
    analyzeDirectoryError (rootFailEvents "/data") = none ∧
    (runWalk (rootFailEvents "/data")).1 = [] :=
  ⟨rfl, rfl⟩

/-- C5 amended: every traversal error, the root-open failure included, is
skipped: the walk of analyzeDirectory always returns a nil error, and a
root-open failure merely yields a walk that delivered no paths. -/
theorem C5_walk_errors_skipped (events : List WalkEvent) :
    analyzeDirectoryError events = none ∧
    (∀ root, analyzeDirectoryError (rootFailEvents root) = none ∧
      (runWalk (rootFailEvents root)).1 = []) := by
  constructor
  · induction events with
    | nil => rfl
    | cons ev rest ih =>
      cases ev with
      | node p => simpa [analyzeDirectoryError, runWalk, walkFn] using ih
      | failure p => simpa [analyzeDirectoryError, runWalk, walkFn] using ih
  · intro root
    exact ⟨rfl, rfl⟩

/-- One snapshot on the observer channel: progressMsg of src/main.go. -/
structure ProgressMsg where
  processed : Int
  total : Int
deriving DecidableEq

/-- The observer channel, a FIFO buffer of capacity 100:
make(chan progressMsg, 100) in initialModel. -/
structure ProgChan where
  buf : List ProgressMsg
deriving DecidableEq

/-- The capacity of the observer channel. -/
def progCap : Nat := 100

/-- A non-blocking send (select with default): enqueue when there is room,
drop the message otherwise; the flag reports whether the send happened. -/
def trySend (c : ProgChan) (m : ProgressMsg) : ProgChan × Bool :=
  if c.buf.length < progCap then (ProgChan.mk (c.buf ++ [m]), true) else (c, false)

/-- One step of the reporter/observer interaction: a ticker tick (the loop
body of src/main.go lines 416-434) reads the atomic counters and attempts a
non-blocking send when total is positive; a recv is the observer draining
one message.  The state carries the channel and the log of messages
successfully emitted to the channel, in order. -/
inductive RepEvent where
  | tick (processed : Int)
  | recv
deriving DecidableEq

/-- The tick samples of a schedule: the successive values the ticker reads
from the atomic processed counter. -/
def tickValues (events : List RepEvent) : List Int :=
  events.filterMap (fun e =>
    match e with
    | .tick p => some p
    | .recv => none)

/-- One reporter or observer step. -/
def repStep (total : Int) (st : ProgChan × List ProgressMsg) (ev : RepEvent) :
    ProgChan × List ProgressMsg :=
  match ev with
  | .tick p =>
    if 0 < total then
      if (trySend st.1 (ProgressMsg.mk p total)).2 then
        ((trySend st.1 (ProgressMsg.mk p total)).1,
          st.2 ++ [ProgressMsg.mk p total])
      else ((trySend st.1 (ProgressMsg.mk p total)).1, st.2)
    else st
  | .recv =>
    match st.1.buf with
    | [] => st
    | _ :: rest => (ProgChan.mk rest, st.2)

/-- A reporter run over a schedule of ticks and observer receives, from the
fresh empty channel. -/
def reporterRun (total : Int) (events : List RepEvent) :
    ProgChan × List ProgressMsg :=
  events.foldl (repStep total) (ProgChan.mk [], [])

/-- The final send of analyzeDirectory (src/main.go lines 461-465): after
g.Wait() one more non-blocking send of (total, total). -/
def finalSend (total : Int) (st : ProgChan × List ProgressMsg) :
    ProgChan × List ProgressMsg :=
  if (trySend st.1 (ProgressMsg.mk total total)).2 then
    ((trySend st.1 (ProgressMsg.mk total total)).1,
      st.2 ++ [ProgressMsg.mk total total])
  else ((trySend st.1 (ProgressMsg.mk total total)).1, st.2)

/-- The emitted log of a reporter run extends the starting log by a sublist
of the tick snapshots, in order. -/
theorem repRun_log (total : Int) (events : List RepEvent) :
    ∀ st : ProgChan × List ProgressMsg,
      ∃ l, (events.foldl (repStep total) st).2 = st.2 ++ l ∧
        l.Sublist ((tickValues events).map (fun p => ProgressMsg.mk p total)) := by
  induction events with
  | nil =>
    intro st
    exact ⟨[], by simp, by simp⟩
  | cons ev rest ih =>
    intro st
    rw [List.foldl_cons]
    cases ev with
    | tick p =>
      have htv : tickValues (RepEvent.tick p :: rest) = p :: tickValues rest := by
        simp [tickValues]
      by_cases ht : (0 : Int) < total
      · by_cases hr : st.1.buf.length < progCap
        · have hstep : repStep total st (RepEvent.tick p)
              = (ProgChan.mk (st.1.buf ++ [ProgressMsg.mk p total]),
                st.2 ++ [ProgressMsg.mk p total]) := by
            simp [repStep, trySend, ht, hr]
          rw [hstep]
          obtain ⟨l, h1, h2⟩ := ih _
          refine ⟨ProgressMsg.mk p total :: l, ?_, ?_⟩
          · rw [h1]
            simp
          · rw [htv, List.map_cons]
            exact h2.cons₂ _
        · have hstep : repStep total st (RepEvent.tick p) = (st.1, st.2) := by
            simp [repStep, trySend, ht, hr]
          rw [hstep]
          obtain ⟨l, h1, h2⟩ := ih (st.1, st.2)
          refine ⟨l, h1, ?_⟩
          rw [htv, List.map_cons]
          exact h2.cons _
      · have hstep : repStep total st (RepEvent.tick p) = st := by
          simp [repStep, ht]
        rw [hstep]
        obtain ⟨l, h1, h2⟩ := ih st
        refine ⟨l, h1, ?_⟩
        rw [htv, List.map_cons]
        exact h2.cons _
    | recv =>
      have htv : tickValues (RepEvent.recv :: rest) = tickValues rest := by
        simp [tickValues]
      have hlog : (repStep total st RepEvent.recv).2 = st.2 := by
        show (match st.1.buf with
          | [] => st
          | _ :: rest => (ProgChan.mk rest, st.2)).2 = st.2
        cases st.1.buf <;> rfl
      obtain ⟨l, h1, h2⟩ := ih (repStep total st RepEvent.recv)
      refine ⟨l, ?_, htv ▸ h2⟩
      rw [h1, hlog]

/-- C6 counterexample: with total 1, a hundred ticks sampling 0 and an
observer that never receives, the channel is full when the pipeline
completes, the final non-blocking send of (total, total) is dropped, and no
snapshot with processed equal to total is ever emitted. -/
theorem C6_final_snapshot_dropped :
    (finalSend 1 (reporterRun 1 (List.replicate 100 (RepEvent.tick 0)))).2
      = (reporterRun 1 (List.replicate 100 (RepEvent.tick 0))).2 ∧
    ∀ m ∈ (finalSend 1 (reporterRun 1 (List.replicate 100 (RepEvent.tick 0)))).2,
      ¬ m.processed = m.total := by decide

/-- C6 amended: when the tick samples are non-decreasing (as the atomic
processed counter is), the snapshots emitted to the observer channel have
non-decreasing processed values and all carry the run's total; the final
(total, total) snapshot is emitted exactly when the channel has room when
the pipeline completes, and is dropped otherwise. -/
theorem C6_progress_monotone (total : Int) (events : List RepEvent)
    (hmono : List.Chain' (· ≤ ·) (tickValues events)) :
    List.Chain' (· ≤ ·)
      (((reporterRun total events).2).map ProgressMsg.processed) ∧
    (∀ m ∈ (reporterRun total events).2, m.total = total) ∧
    ((reporterRun total events).1.buf.length < progCap →
      (finalSend total (reporterRun total events)).2
        = (reporterRun total events).2 ++ [ProgressMsg.mk total total]) ∧
    (¬ (reporterRun total events).1.buf.length < progCap →
      (finalSend total (reporterRun total events)).2
        = (reporterRun total events).2) := by
  obtain ⟨l, h1, h2⟩ := repRun_log total events (ProgChan.mk [], [])
  have hlog : (reporterRun total events).2 = l := by
    show (events.foldl (repStep total) (ProgChan.mk [], [])).2 = l
    rw [h1]
    simp
  refine ⟨?_, ?_, ?_, ?_⟩
  · rw [hlog]
    have hsub : (l.map ProgressMsg.processed).Sublist
        (((tickValues events).map (fun p => ProgressMsg.mk p total)).map
          ProgressMsg.processed) := h2.map _
    have hmm : (((tickValues events).map (fun p => ProgressMsg.mk p total)).map
        ProgressMsg.processed) = tickValues events := by
      rw [List.map_map]
      exact List.map_id _
    rw [hmm] at hsub
    exact List.Chain'.sublist hmono hsub
  · intro m hm
    rw [hlog] at hm
    have hmem := h2.subset hm
    rw [List.mem_map] at hmem
    obtain ⟨p, -, rfl⟩ := hmem
    rfl
  · intro hroom
    simp [finalSend, trySend, hroom]
  · intro hroom
    simp [finalSend, trySend, hroom]

theorem C6_progress_monotone_witness :
    List.Chain' (· ≤ ·) (tickValues [RepEvent.tick 0, RepEvent.tick 2]) ∧
    List.Chain' (· ≤ ·)
      (((reporterRun 5 [RepEvent.tick 0, RepEvent.tick 2]).2).map
        ProgressMsg.processed) := by
  have hm : List.Chain' (· ≤ ·) (tickValues [RepEvent.tick 0, RepEvent.tick 2]) := by
    show List.Chain' (· ≤ ·) [(0 : Int), 2]
    simp
  exact ⟨hm, (C6_progress_monotone 5 [RepEvent.tick 0, RepEvent.tick 2] hm).1⟩

/-- The abstract operations a merge function executes, in source order. -/
inductive MergeOp where
  | lockAcquire
  | lockRelease
  | counterUpdate
  | mapUpdate
  | heapUpdate
  | extremumUpdate
  | clockRead
  | readDirCall
deriving DecidableEq

/-- The operation trace of processDirectory (src/main.go lines 495-527):
lock, TotalDirs, DirDepths, the hidden-name counter, then os.ReadDir — a
blocking filesystem call — then EmptyDirs and FilesPerDir, with the deferred
unlock last. -/
def processDirectoryTrace : List MergeOp :=
  [MergeOp.lockAcquire,
   MergeOp.counterUpdate,
   MergeOp.mapUpdate,
   MergeOp.counterUpdate,
   MergeOp.readDirCall,
   MergeOp.counterUpdate,
   MergeOp.mapUpdate,
   MergeOp.lockRelease]

/-- The operation trace of processFile (src/main.go lines 529-584): counter,
map, tracker, extremum updates and monotonic clock reads (time.Since) only —
no filesystem call — with the deferred unlock last. -/
def processFileTrace : List MergeOp :=
  [MergeOp.lockAcquire,
   MergeOp.counterUpdate, MergeOp.counterUpdate,
   MergeOp.mapUpdate,
   MergeOp.mapUpdate, MergeOp.mapUpdate,
   MergeOp.heapUpdate, MergeOp.heapUpdate,
   MergeOp.counterUpdate, MergeOp.counterUpdate,
   MergeOp.clockRead, MergeOp.counterUpdate,
   MergeOp.counterUpdate, MergeOp.mapUpdate,
   MergeOp.extremumUpdate, MergeOp.extremumUpdate, MergeOp.mapUpdate,
   MergeOp.clockRead, MergeOp.counterUpdate,
   MergeOp.counterUpdate, MergeOp.counterUpdate,
   MergeOp.clockRead, MergeOp.mapUpdate,
   MergeOp.lockRelease]

/-- Filesystem I/O: of the operations the merge functions perform, only
os.ReadDir touches the filesystem. -/
def isFsCall (op : MergeOp) : Bool := op == MergeOp.readDirCall

/-- The operations executed while the lock is held. -/
def critOpsAux : List MergeOp → Bool → List MergeOp
  | [], _ => []
  | op :: rest, inside =>
    if op == MergeOp.lockAcquire then critOpsAux rest true
    else if op == MergeOp.lockRelease then critOpsAux rest false
    else if inside then op :: critOpsAux rest inside
    else critOpsAux rest inside

/-- The critical-section operations of a trace. -/
def critOps (t : List MergeOp) : List MergeOp := critOpsAux t false

/-- A trace performs no filesystem I/O under the lock. -/
def noDiskUnderLock (t : List MergeOp) : Bool := !(critOps t).any isFsCall

/-- C9 counterexample: the critical section of processDirectory performs
os.ReadDir while holding the Stats lock, so the claim fails for directory
observations. -/
theorem C9_readdir_under_lock :
    ¬ noDiskUnderLock processDirectoryTrace = true := by decide

/-- C9 amended: the file-observation merge performs no filesystem I/O while
holding the Stats lock, but the directory-observation merge calls os.ReadDir
inside its critical section. -/
theorem C9_lock_sections :
    noDiskUnderLock processFileTrace = true ∧
    noDiskUnderLock processDirectoryTrace = false ∧
    MergeOp.readDirCall ∈ critOps processDirectoryTrace := by decide

end Madaa
